import Mathlib

/-!
Verification of the rebalancing weight resolver and weight mixer.

Shallow embedding of the portfolio-weight core of the repository:

* `Config._get_active_rebalance_for_date`, `Config.get_portfolio_tickers_for_date`,
  `Config.get_portfolio_weights_for_date` (src/config.py);
* `IndexWeightsCalculator._calculate_mixed_weights`,
  `IndexWeightsCalculator._calculate_capitalization_weights_for_tickers`,
  `IndexWeightsCalculator._normalize_weights`,
  `IndexWeightsCalculator.calculate_portfolio_weights_for_date`,
  `IndexWeightsCalculator.calculate_all_portfolios_weights_for_date`
  (src/creating_portfolio/calculate_weights_portfolio.py);
* `CapitalizationMOEX.get_multiple_tickers_capitalization`
  (src/creating_portfolio/capitalization_moex.py).

Modelling conventions:

* Python dicts become association lists `List (String × _)` in insertion
  order; dict key membership is membership in the list of first components.
* Calendar dates (`datetime.strptime(s, "%Y-%m-%d")`) are totally ordered
  values; they are modelled by `Nat` (e.g. an epoch day number), which
  preserves exactly the `<=`/`>` comparisons the code performs.
* Python `float` arithmetic is modelled by exact rational arithmetic `ℚ`;
  statements about a `1e-9` floating-point tolerance are settled by showing
  the exact quantity, whose drift is then `0 ≤ 1e-9`.
* The injected capitalization source (`get_ticker_capitalization`) is an
  opaque lookup `String → Option ℚ`; `None` models an unknown ticker or a
  missing/NaN capitalization field.
-/

namespace PortfolioTesting

/-- One `rebalance_date_N` entry of a portfolio in
`settings/tickers_in_portfolio.yaml`: a parsed `date` and the `tickers`
mapping, where `none` is a YAML `null` weight ("derive from
capitalization"). -/
structure RebalanceEvent where
  date : Nat
  tickers : List (String × Option ℚ)
deriving DecidableEq

/-- Keys of an association list (a Python dict's key view). -/
def keys {β : Type} (l : List (String × β)) : List String :=
  l.map Prod.fst

/-- Sum of the values of a weight map (`sum(d.values())`). -/
def sumValues (l : List (String × ℚ)) : ℚ :=
  (l.map Prod.snd).sum

/-! ## Config (src/config.py) -/

/-- Loop body of `Config._get_active_rebalance_for_date`: keep the running
best; replace it when the event's date is `<= target` and strictly later
than the current best (`rebalance_dt <= target_dt and (active_date is None
or rebalance_dt > active_date)`). -/
def activeStep (targetDate : Nat) (acc : Option RebalanceEvent)
    (ev : RebalanceEvent) : Option RebalanceEvent :=
  if ev.date ≤ targetDate then
    match acc with
    | none => some ev
    | some a => if a.date < ev.date then some ev else acc
  else acc

/-- `Config._get_active_rebalance_for_date`: scan the portfolio's
rebalancing events in iteration order and return the running best, `none`
when no event has `date <= targetDate`.  `none` models the spec's
`NoActiveRebalance` failure (the source returns Python `None` and the
caller logs a warning). -/
def getActiveRebalanceForDate (portfolioData : List RebalanceEvent)
    (targetDate : Nat) : Option RebalanceEvent :=
  portfolioData.foldl (activeStep targetDate) none

/-- `Config.get_portfolio_tickers_for_date`: unknown portfolio or no active
rebalance gives `[]`; otherwise the keys of the active event's `tickers`
dict. -/
def getPortfolioTickersForDate (portfolios : List (String × List RebalanceEvent))
    (portfolioName : String) (targetDate : Nat) : List String :=
  match List.lookup portfolioName portfolios with
  | none => []
  | some pd =>
    match getActiveRebalanceForDate pd targetDate with
    | none => []
    | some ev => keys ev.tickers

/-- `Config.get_portfolio_weights_for_date`: unknown portfolio or no active
rebalance gives `{}`; otherwise the active event's `tickers` dict with the
`None` values filtered out. -/
def getPortfolioWeightsForDate (portfolios : List (String × List RebalanceEvent))
    (portfolioName : String) (targetDate : Nat) : List (String × ℚ) :=
  match List.lookup portfolioName portfolios with
  | none => []
  | some pd =>
    match getActiveRebalanceForDate pd targetDate with
    | none => []
    | some ev => ev.tickers.filterMap (fun p => p.2.map (fun w => (p.1, w)))

/-! ## CapitalizationMOEX (src/creating_portfolio/capitalization_moex.py) -/

/-- The dict built by `get_multiple_tickers_capitalization`'s loop
`result[ticker] = self.get_ticker_capitalization(ticker)`: one entry per
distinct ticker, first-occurrence order, value the lookup's answer.
`seen` is the set of keys already inserted. -/
def buildCapDict (cap : String → Option ℚ) :
    List String → List String → List (String × Option ℚ)
  | _, [] => []
  | seen, t :: ts =>
    if t ∈ seen then buildCapDict cap seen ts
    else (t, cap t) :: buildCapDict cap (t :: seen) ts

/-- `CapitalizationMOEX.get_multiple_tickers_capitalization` with the bulk
data already loaded: query the lookup for every ticker of the list. -/
def getMultipleTickersCapitalization (cap : String → Option ℚ)
    (tickers : List String) : List (String × Option ℚ) :=
  buildCapDict cap [] tickers

/-! ## IndexWeightsCalculator (src/creating_portfolio/calculate_weights_portfolio.py) -/

/-- The dict comprehension
`{ticker: cap for ticker, cap in capitalizations.items() if cap is not None}`
inside `_calculate_capitalization_weights_for_tickers`. -/
def validCapitalizations (cap : String → Option ℚ)
    (tickers : List String) : List (String × ℚ) :=
  (getMultipleTickersCapitalization cap tickers).filterMap
    (fun p => p.2.map (fun c => (p.1, c)))

/-- `IndexWeightsCalculator._calculate_capitalization_weights_for_tickers`:
empty input, no valid capitalization, or a zero total each give `{}`;
otherwise every valid ticker is weighted `cap / total`. -/
def calculateCapitalizationWeightsForTickers (cap : String → Option ℚ)
    (tickers : List String) : List (String × ℚ) :=
  if tickers = [] then []
  else if validCapitalizations cap tickers = [] then []
  else if sumValues (validCapitalizations cap tickers) = 0 then []
  else (validCapitalizations cap tickers).map
    (fun p => (p.1, p.2 / sumValues (validCapitalizations cap tickers)))

/-- `IndexWeightsCalculator._normalize_weights`: `{}` stays `{}`, a zero
total gives `{}`, otherwise divide every value by the total. -/
def normalizeWeights (weights : List (String × ℚ)) : List (String × ℚ) :=
  if weights = [] then []
  else if sumValues weights = 0 then []
  else weights.map (fun p => (p.1, p.2 / sumValues weights))

/-- `[ticker for ticker in tickers if ticker not in predefined_weights]`
inside `_calculate_mixed_weights`. -/
def tickersWithoutWeights (tickers : List String)
    (predefinedWeights : List (String × ℚ)) : List String :=
  tickers.filter (fun t => decide (t ∉ keys predefinedWeights))

/-- `IndexWeightsCalculator._calculate_mixed_weights`.  The merge
`{**predefined_weights, **scaled_cap_weights}` is an append because the
scaled keys come from `tickersWithoutWeights`, which excludes every
predefined key, so the two dicts are key-disjoint. -/
def calculateMixedWeights (cap : String → Option ℚ) (tickers : List String)
    (predefinedWeights : List (String × ℚ)) : List (String × ℚ) :=
  if tickersWithoutWeights tickers predefinedWeights = [] then
    normalizeWeights predefinedWeights
  else if keys predefinedWeights = [] then
    calculateCapitalizationWeightsForTickers cap tickers
  else if calculateCapitalizationWeightsForTickers cap
      (tickersWithoutWeights tickers predefinedWeights) = [] then
    normalizeWeights predefinedWeights
  else if 1 - sumValues predefinedWeights ≤ 0 then
    normalizeWeights predefinedWeights
  else
    normalizeWeights (predefinedWeights ++
      (calculateCapitalizationWeightsForTickers cap
          (tickersWithoutWeights tickers predefinedWeights)).map
        (fun p => (p.1, p.2 * ((1 - sumValues predefinedWeights) /
          sumValues (calculateCapitalizationWeightsForTickers cap
            (tickersWithoutWeights tickers predefinedWeights))))))

/-- The state an `IndexWeightsCalculator` reads: the portfolios loaded from
`Config.get_portfolios()` and the bulk-fetched capitalization lookup. -/
structure CalculatorState where
  portfolios : List (String × List RebalanceEvent)
  cap : String → Option ℚ

/-- `IndexWeightsCalculator.calculate_portfolio_weights_for_date`: unknown
portfolio gives `{}`; resolve tickers and predefined weights for the date;
`{}` when no tickers were found; otherwise the mixed computation. -/
def calculatePortfolioWeightsForDate (st : CalculatorState)
    (portfolioName : String) (targetDate : Nat) : List (String × ℚ) :=
  if portfolioName ∈ keys st.portfolios then
    if getPortfolioTickersForDate st.portfolios portfolioName targetDate = [] then []
    else calculateMixedWeights st.cap
      (getPortfolioTickersForDate st.portfolios portfolioName targetDate)
      (getPortfolioWeightsForDate st.portfolios portfolioName targetDate)
  else []

/-- `IndexWeightsCalculator.calculate_all_portfolios_weights_for_date`:
compute every portfolio's weights for the date and keep only the non-empty
results. -/
def calculateAllPortfoliosWeightsForDate (st : CalculatorState)
    (targetDate : Nat) : List (String × List (String × ℚ)) :=
  st.portfolios.filterMap (fun p =>
    if calculatePortfolioWeightsForDate st p.1 targetDate = [] then none
    else some (p.1, calculatePortfolioWeightsForDate st p.1 targetDate))

/-! ## Association-list helper lemmas -/

theorem lookup_eq_none_of_forall {β : Type} :
    ∀ (l : List (String × β)) (k : String),
      (∀ p ∈ l, p.1 ≠ k) → List.lookup k l = none
  | [], _, _ => rfl
  | (a, b) :: rest, k, h => by
    have ha : a ≠ k := h (a, b) (List.mem_cons_self _ _)
    have : (k == a) = false := beq_eq_false_iff_ne.mpr (Ne.symm ha)
    simp only [List.lookup, this]
    exact lookup_eq_none_of_forall rest k (fun p hp => h p (List.mem_cons_of_mem _ hp))

theorem lookup_append_of_not_mem_keys {β : Type} :
    ∀ (l₁ l₂ : List (String × β)) (k : String),
      k ∉ keys l₁ → List.lookup k (l₁ ++ l₂) = List.lookup k l₂
  | [], _, _, _ => rfl
  | (a, b) :: rest, l₂, k, h => by
    have ha : k ≠ a := by
      intro hk
      exact h (by simp [keys, hk])
    have : (k == a) = false := beq_eq_false_iff_ne.mpr ha
    simp only [List.cons_append, List.lookup, this]
    exact lookup_append_of_not_mem_keys rest l₂ k (fun hk => h (by simp [keys] at hk ⊢; exact Or.inr hk))

theorem lookup_map_snd {β γ : Type} (f : β → γ) :
    ∀ (l : List (String × β)) (k : String),
      List.lookup k (l.map (fun p => (p.1, f p.2))) = (List.lookup k l).map f
  | [], _ => rfl
  | (a, b) :: rest, k => by
    by_cases hk : k = a
    · simp [List.lookup, hk]
    · have : (k == a) = false := beq_eq_false_iff_ne.mpr hk
      simp only [List.map_cons, List.lookup, this]
      exact lookup_map_snd f rest k

theorem lookup_eq_some_of_mem_nodup {β : Type} :
    ∀ (l : List (String × β)) (k : String) (v : β),
      (k, v) ∈ l → (keys l).Nodup → List.lookup k l = some v
  | (a, b) :: rest, k, v, hmem, hnd => by
    rcases List.mem_cons.mp hmem with heq | hrest
    · obtain ⟨rfl, rfl⟩ := Prod.mk.injEq .. ▸ heq
      simp [List.lookup]
    · have hnd' : (a :: keys rest).Nodup := hnd
      have ha : k ≠ a := by
        rintro rfl
        have : k ∈ keys rest := List.mem_map.mpr ⟨(k, v), hrest, rfl⟩
        exact (List.nodup_cons.mp hnd').1 this
      have : (k == a) = false := beq_eq_false_iff_ne.mpr ha
      simp only [List.lookup, this]
      exact lookup_eq_some_of_mem_nodup rest k v hrest (List.nodup_cons.mp hnd').2

theorem mem_keys_of_lookup_eq_some {β : Type} :
    ∀ (l : List (String × β)) (k : String) (v : β),
      List.lookup k l = some v → k ∈ keys l
  | (a, b) :: rest, k, v, h => by
    by_cases hk : k = a
    · simp [keys, hk]
    · have hne : (k == a) = false := beq_eq_false_iff_ne.mpr hk
      simp only [List.lookup, hne] at h
      have := mem_keys_of_lookup_eq_some rest k v h
      simp [keys] at this ⊢
      exact Or.inr this

theorem keys_map_snd {β γ : Type} (f : β → γ) (l : List (String × β)) :
    keys (l.map (fun p => (p.1, f p.2))) = keys l := by
  simp [keys, List.map_map]

theorem sumValues_append (l₁ l₂ : List (String × ℚ)) :
    sumValues (l₁ ++ l₂) = sumValues l₁ + sumValues l₂ := by
  simp [sumValues]

theorem sumValues_map_mul (l : List (String × ℚ)) (c : ℚ) :
    sumValues (l.map (fun p => (p.1, p.2 * c))) = sumValues l * c := by
  induction l with
  | nil => simp [sumValues]
  | cons p rest ih => simp [sumValues, add_mul] at ih ⊢; rw [ih]

theorem sumValues_map_div (l : List (String × ℚ)) (c : ℚ) :
    sumValues (l.map (fun p => (p.1, p.2 / c))) = sumValues l / c := by
  simp only [div_eq_mul_inv]
  exact sumValues_map_mul l c⁻¹

theorem sumValues_nonneg (l : List (String × ℚ)) (h : ∀ p ∈ l, 0 ≤ p.2) :
    0 ≤ sumValues l := by
  refine List.sum_nonneg ?_
  intro x hx
  rcases List.mem_map.mp hx with ⟨p, hp, rfl⟩
  exact h p hp

theorem sumValues_nil_of_eq_nil : sumValues [] = 0 := rfl

theorem ne_nil_of_sumValues_ne_zero (l : List (String × ℚ)) (h : sumValues l ≠ 0) :
    l ≠ [] := by
  rintro rfl
  exact h rfl

/-! ## Lemmas about the capitalization dict and valid capitalizations -/

theorem mem_buildCapDict (cap : String → Option ℚ) :
    ∀ (seen ts : List String) (p : String × Option ℚ),
      p ∈ buildCapDict cap seen ts → p.2 = cap p.1 ∧ p.1 ∈ ts ∧ p.1 ∉ seen
  | seen, t :: ts, p, h => by
    rw [buildCapDict] at h
    by_cases hs : t ∈ seen
    · rw [if_pos hs] at h
      obtain ⟨h1, h2, h3⟩ := mem_buildCapDict cap seen ts p h
      exact ⟨h1, List.mem_cons_of_mem _ h2, h3⟩
    · rw [if_neg hs] at h
      rcases List.mem_cons.mp h with heq | hrest
      · subst heq
        exact ⟨rfl, List.mem_cons_self _ _, hs⟩
      · obtain ⟨h1, h2, h3⟩ := mem_buildCapDict cap (t :: seen) ts p hrest
        refine ⟨h1, List.mem_cons_of_mem _ h2, fun hmem => h3 (List.mem_cons_of_mem _ hmem)⟩

theorem buildCapDict_mem (cap : String → Option ℚ) :
    ∀ (seen ts : List String) (t : String),
      t ∈ ts → t ∉ seen → (t, cap t) ∈ buildCapDict cap seen ts
  | seen, t' :: ts, t, hts, hseen => by
    rw [buildCapDict]
    by_cases hs : t' ∈ seen
    · rw [if_pos hs]
      rcases List.mem_cons.mp hts with rfl | hrest
      · exact absurd hs hseen
      · exact buildCapDict_mem cap seen ts t hrest hseen
    · rw [if_neg hs]
      rcases List.mem_cons.mp hts with rfl | hrest
      · exact List.mem_cons_self _ _
      · by_cases ht' : t = t'
        · subst ht'
          exact List.mem_cons_self _ _
        · refine List.mem_cons_of_mem _ ?_
          exact buildCapDict_mem cap (t' :: seen) ts t hrest
            (fun hmem => (List.mem_cons.mp hmem).elim ht' hseen)

theorem keys_buildCapDict_nodup (cap : String → Option ℚ) :
    ∀ (seen ts : List String), (keys (buildCapDict cap seen ts)).Nodup
  | _, [] => List.nodup_nil
  | seen, t :: ts => by
    rw [buildCapDict]
    by_cases hs : t ∈ seen
    · rw [if_pos hs]
      exact keys_buildCapDict_nodup cap seen ts
    · rw [if_neg hs]
      refine List.nodup_cons.mpr ⟨?_, keys_buildCapDict_nodup cap (t :: seen) ts⟩
      intro hmem
      rcases List.mem_map.mp hmem with ⟨p, hp, hfst⟩
      have := (mem_buildCapDict cap (t :: seen) ts p hp).2.2
      exact this (hfst ▸ List.mem_cons_self _ _)

theorem mem_validCapitalizations_iff (cap : String → Option ℚ) (ts : List String)
    (t : String) (c : ℚ) :
    (t, c) ∈ validCapitalizations cap ts ↔ cap t = some c ∧ t ∈ ts := by
  constructor
  · intro h
    rcases List.mem_filterMap.mp h with ⟨q, hq, hmap⟩
    rcases Option.map_eq_some'.mp hmap with ⟨c', hc', heq⟩
    obtain ⟨h1, h2⟩ := Prod.mk.injEq .. ▸ heq
    obtain ⟨hq1, hq2, _⟩ := mem_buildCapDict cap [] ts q hq
    subst h1; subst h2
    exact ⟨hq1 ▸ hc', hq2⟩
  · rintro ⟨hc, hts⟩
    refine List.mem_filterMap.mpr ⟨(t, cap t), buildCapDict_mem cap [] ts t hts (by simp), ?_⟩
    simp [hc]

theorem keys_validCapitalizations_sublist (l : List (String × Option ℚ)) :
    List.Sublist (keys (l.filterMap (fun p => p.2.map (fun c => (p.1, c))))) (keys l) := by
  induction l with
  | nil => exact List.Sublist.refl _
  | cons q rest ih =>
    cases hq : q.2 with
    | none => simpa [keys, List.filterMap_cons, hq] using ih.cons q.1
    | some c => simpa [keys, List.filterMap_cons, hq] using ih.cons₂ q.1

theorem keys_validCapitalizations_nodup (cap : String → Option ℚ) (ts : List String) :
    (keys (validCapitalizations cap ts)).Nodup :=
  (keys_buildCapDict_nodup cap [] ts).sublist (keys_validCapitalizations_sublist _)

theorem validCapitalizations_nonneg (cap : String → Option ℚ) (ts : List String)
    (hcap : ∀ t c, cap t = some c → 0 ≤ c) :
    ∀ p ∈ validCapitalizations cap ts, 0 ≤ p.2 := by
  rintro ⟨t, c⟩ hp
  exact hcap t c ((mem_validCapitalizations_iff cap ts t c).mp hp).1

/-! ## Lemmas about the capitalization-weight sub-routine -/

theorem capWeights_cases (cap : String → Option ℚ) (ts : List String) :
    calculateCapitalizationWeightsForTickers cap ts = [] ∨
      (sumValues (validCapitalizations cap ts) ≠ 0 ∧
        calculateCapitalizationWeightsForTickers cap ts =
          (validCapitalizations cap ts).map
            (fun p => (p.1, p.2 / sumValues (validCapitalizations cap ts)))) := by
  rw [calculateCapitalizationWeightsForTickers]
  split_ifs with h1 h2 h3
  · exact Or.inl rfl
  · exact Or.inl rfl
  · exact Or.inl rfl
  · exact Or.inr ⟨h3, rfl⟩

theorem sumValues_capWeights (cap : String → Option ℚ) (ts : List String)
    (h : calculateCapitalizationWeightsForTickers cap ts ≠ []) :
    sumValues (calculateCapitalizationWeightsForTickers cap ts) = 1 := by
  rcases capWeights_cases cap ts with hc | ⟨hs, hc⟩
  · exact absurd hc h
  · rw [hc, sumValues_map_div, div_self hs]

theorem capWeights_nonneg (cap : String → Option ℚ) (ts : List String)
    (hcap : ∀ t c, cap t = some c → 0 ≤ c) :
    ∀ p ∈ calculateCapitalizationWeightsForTickers cap ts, 0 ≤ p.2 := by
  rcases capWeights_cases cap ts with hc | ⟨hs, hc⟩
  · rw [hc]; intro p hp; cases hp
  · rw [hc]
    rintro ⟨t, w⟩ hp
    rcases List.mem_map.mp hp with ⟨q, hq, heq⟩
    obtain ⟨_, h2⟩ := Prod.mk.injEq .. ▸ heq
    have hq2 : 0 ≤ q.2 := validCapitalizations_nonneg cap ts hcap q hq
    have htot : 0 ≤ sumValues (validCapitalizations cap ts) :=
      sumValues_nonneg _ (validCapitalizations_nonneg cap ts hcap)
    exact h2 ▸ div_nonneg hq2 htot

theorem lookup_capWeights (cap : String → Option ℚ) (ts : List String)
    (t : String) (c : ℚ) (hc : cap t = some c) (hts : t ∈ ts)
    (hne : calculateCapitalizationWeightsForTickers cap ts ≠ []) :
    List.lookup t (calculateCapitalizationWeightsForTickers cap ts) =
      some (c / sumValues (validCapitalizations cap ts)) := by
  rcases capWeights_cases cap ts with hcs | ⟨hs, hcs⟩
  · exact absurd hcs hne
  · rw [hcs, lookup_map_snd (fun x => x / sumValues (validCapitalizations cap ts))]
    rw [lookup_eq_some_of_mem_nodup (validCapitalizations cap ts) t c
      ((mem_validCapitalizations_iff cap ts t c).mpr ⟨hc, hts⟩)
      (keys_validCapitalizations_nodup cap ts)]
    rfl

/-! ## Lemmas about weight normalization -/

theorem normalizeWeights_cases (w : List (String × ℚ)) :
    normalizeWeights w = [] ∨
      (w ≠ [] ∧ sumValues w ≠ 0 ∧
        normalizeWeights w = w.map (fun p => (p.1, p.2 / sumValues w))) := by
  rw [normalizeWeights]
  split_ifs with h1 h2
  · exact Or.inl rfl
  · exact Or.inl rfl
  · exact Or.inr ⟨h1, h2, rfl⟩

theorem normalizeWeights_eq (w : List (String × ℚ)) (h1 : w ≠ [])
    (h2 : sumValues w ≠ 0) :
    normalizeWeights w = w.map (fun p => (p.1, p.2 / sumValues w)) := by
  rw [normalizeWeights, if_neg h1, if_neg h2]

theorem sumValues_normalizeWeights (w : List (String × ℚ))
    (h : normalizeWeights w ≠ []) : sumValues (normalizeWeights w) = 1 := by
  rcases normalizeWeights_cases w with hc | ⟨_, hs, hc⟩
  · exact absurd hc h
  · rw [hc, sumValues_map_div, div_self hs]

theorem normalizeWeights_nonneg (w : List (String × ℚ))
    (hw : ∀ p ∈ w, 0 ≤ p.2) :
    ∀ p ∈ normalizeWeights w, 0 ≤ p.2 := by
  rcases normalizeWeights_cases w with hc | ⟨_, hs, hc⟩
  · rw [hc]; intro p hp; cases hp
  · rw [hc]
    rintro ⟨t, v⟩ hp
    rcases List.mem_map.mp hp with ⟨q, hq, heq⟩
    obtain ⟨_, h2⟩ := Prod.mk.injEq .. ▸ heq
    exact h2 ▸ div_nonneg (hw q hq) (sumValues_nonneg w hw)

theorem keys_normalizeWeights_sub (w : List (String × ℚ)) (t : String)
    (h : t ∈ keys (normalizeWeights w)) : t ∈ keys w := by
  rcases normalizeWeights_cases w with hc | ⟨_, _, hc⟩
  · rw [hc] at h; cases h
  · rw [hc, keys_map_snd (fun x => x / sumValues w)] at h; exact h

/-! ## Lemmas about the mixed-weight computation -/

theorem mixedWeights_merge (cap : String → Option ℚ) (tickers : List String)
    (predefinedWeights : List (String × ℚ))
    (h1 : tickersWithoutWeights tickers predefinedWeights ≠ [])
    (h2 : keys predefinedWeights ≠ [])
    (h3 : calculateCapitalizationWeightsForTickers cap
      (tickersWithoutWeights tickers predefinedWeights) ≠ [])
    (h4 : ¬ 1 - sumValues predefinedWeights ≤ 0) :
    calculateMixedWeights cap tickers predefinedWeights =
      normalizeWeights (predefinedWeights ++
        (calculateCapitalizationWeightsForTickers cap
            (tickersWithoutWeights tickers predefinedWeights)).map
          (fun p => (p.1, p.2 * ((1 - sumValues predefinedWeights) /
            sumValues (calculateCapitalizationWeightsForTickers cap
              (tickersWithoutWeights tickers predefinedWeights)))))) := by
  rw [calculateMixedWeights, if_neg h1, if_neg h2, if_neg h3, if_neg h4]

theorem mixedWeights_fallback (cap : String → Option ℚ) (tickers : List String)
    (predefinedWeights : List (String × ℚ))
    (h1 : tickersWithoutWeights tickers predefinedWeights ≠ [])
    (h2 : keys predefinedWeights ≠ [])
    (h : calculateCapitalizationWeightsForTickers cap
        (tickersWithoutWeights tickers predefinedWeights) = [] ∨
      1 - sumValues predefinedWeights ≤ 0) :
    calculateMixedWeights cap tickers predefinedWeights =
      normalizeWeights predefinedWeights := by
  rw [calculateMixedWeights, if_neg h1, if_neg h2]
  rcases h with h3 | h4
  · rw [if_pos h3]
  · by_cases h3 : calculateCapitalizationWeightsForTickers cap
        (tickersWithoutWeights tickers predefinedWeights) = []
    · rw [if_pos h3]
    · rw [if_neg h3, if_pos h4]

theorem mem_tickersWithoutWeights (tickers : List String)
    (predefinedWeights : List (String × ℚ)) (t : String) :
    t ∈ tickersWithoutWeights tickers predefinedWeights ↔
      t ∈ tickers ∧ t ∉ keys predefinedWeights := by
  simp [tickersWithoutWeights, List.mem_filter]

/-- Exhaustive branch analysis of `_calculate_mixed_weights`: the result is
the normalized predefined weights, the pure capitalization weights, or the
normalized merge of the predefined and the scaled capitalization weights. -/
theorem mixedWeights_result_cases (cap : String → Option ℚ) (tickers : List String)
    (predefinedWeights : List (String × ℚ)) :
    calculateMixedWeights cap tickers predefinedWeights =
        normalizeWeights predefinedWeights ∨
      calculateMixedWeights cap tickers predefinedWeights =
        calculateCapitalizationWeightsForTickers cap tickers ∨
      (calculateCapitalizationWeightsForTickers cap
          (tickersWithoutWeights tickers predefinedWeights) ≠ [] ∧
        ¬ 1 - sumValues predefinedWeights ≤ 0 ∧
        calculateMixedWeights cap tickers predefinedWeights =
          normalizeWeights (predefinedWeights ++
            (calculateCapitalizationWeightsForTickers cap
                (tickersWithoutWeights tickers predefinedWeights)).map
              (fun p => (p.1, p.2 * ((1 - sumValues predefinedWeights) /
                sumValues (calculateCapitalizationWeightsForTickers cap
                  (tickersWithoutWeights tickers predefinedWeights))))))) := by
  rw [calculateMixedWeights]
  split_ifs with h1 h2 h3 h4
  · exact Or.inl rfl
  · exact Or.inr (Or.inl rfl)
  · exact Or.inl rfl
  · exact Or.inl rfl
  · exact Or.inr (Or.inr ⟨h3, h4, rfl⟩)

theorem mem_keys_validCapitalizations (cap : String → Option ℚ) (ts : List String)
    (t : String) :
    t ∈ keys (validCapitalizations cap ts) ↔ (∃ c, cap t = some c) ∧ t ∈ ts := by
  constructor
  · intro h
    rcases List.mem_map.mp h with ⟨p, hp, rfl⟩
    have := (mem_validCapitalizations_iff cap ts p.1 p.2).mp hp
    exact ⟨⟨p.2, this.1⟩, this.2⟩
  · rintro ⟨⟨c, hc⟩, hts⟩
    exact List.mem_map.mpr ⟨(t, c),
      (mem_validCapitalizations_iff cap ts t c).mpr ⟨hc, hts⟩, rfl⟩

theorem keys_append {β : Type} (l₁ l₂ : List (String × β)) :
    keys (l₁ ++ l₂) = keys l₁ ++ keys l₂ := by
  simp [keys]

/-! ## Lemmas about the rebalance resolver's fold -/

theorem foldl_activeStep_spec (targetDate : Nat) :
    ∀ (pd : List RebalanceEvent) (acc : Option RebalanceEvent),
      (pd.foldl (activeStep targetDate) acc = acc ∨
        ∃ ev, pd.foldl (activeStep targetDate) acc = some ev ∧
          ev ∈ pd ∧ ev.date ≤ targetDate) ∧
      (∀ a, acc = some a →
        ∃ ev, pd.foldl (activeStep targetDate) acc = some ev ∧ a.date ≤ ev.date) ∧
      (∀ e, e ∈ pd → e.date ≤ targetDate →
        ∃ ev, pd.foldl (activeStep targetDate) acc = some ev ∧ e.date ≤ ev.date)
  | [], acc => by
    refine ⟨Or.inl rfl, ?_, ?_⟩
    · rintro a rfl
      exact ⟨a, rfl, le_refl _⟩
    · intro e he
      cases he
  | e :: rest, acc => by
    obtain ⟨ih1, ih2, ih3⟩ := foldl_activeStep_spec targetDate rest (activeStep targetDate acc e)
    have hfold : (e :: rest).foldl (activeStep targetDate) acc =
        rest.foldl (activeStep targetDate) (activeStep targetDate acc e) := rfl
    by_cases hle : e.date ≤ targetDate
    · -- the step either installs `e` or keeps a strictly later accumulator
      have hstep : (activeStep targetDate acc e = some e) ∨
          (∃ a, acc = some a ∧ activeStep targetDate acc e = some a ∧ e.date ≤ a.date) := by
        cases acc with
        | none => exact Or.inl (by simp [activeStep, hle])
        | some a =>
          by_cases hlt : a.date < e.date
          · exact Or.inl (by simp [activeStep, hle, hlt])
          · exact Or.inr ⟨a, rfl, by simp [activeStep, hle, hlt], le_of_not_lt hlt⟩
      refine ⟨?_, ?_, ?_⟩
      · -- membership
        rcases hstep with hs | ⟨a, ha, hs, hae⟩
        · rcases ih1 with h | ⟨ev, hev, hmem, hevle⟩
          · rw [hfold, h, hs]
            exact Or.inr ⟨e, rfl, List.mem_cons_self _ _, hle⟩
          · exact Or.inr ⟨ev, hfold ▸ hev, List.mem_cons_of_mem _ hmem, hevle⟩
        · rcases ih1 with h | ⟨ev, hev, hmem, hevle⟩
          · rw [hfold, h, hs, ← ha]
            exact Or.inl rfl
          · exact Or.inr ⟨ev, hfold ▸ hev, List.mem_cons_of_mem _ hmem, hevle⟩
      · -- monotonicity in the accumulator
        rintro a rfl
        rcases hstep with hs | ⟨a', ha', hs, hae⟩
        · obtain ⟨ev, hev, hevle⟩ := ih2 e hs
          -- `a.date ≤ e.date` or the step kept `a`: in the `some e` case the
          -- replacement only happens when `a.date < e.date`
          have haev : a.date ≤ e.date := by
            by_contra hcon
            have hlt' : ¬ a.date < e.date := fun h => hcon (le_of_lt h)
            simp [activeStep, hle, hlt'] at hs
            exact hcon (hs ▸ le_refl _)
          exact ⟨ev, hfold ▸ hev, le_trans haev hevle⟩
        · obtain rfl : a' = a := by
            injection ha' with h
            exact h.symm
          obtain ⟨ev, hev, hevle⟩ := ih2 a' hs
          exact ⟨ev, hfold ▸ hev, hevle⟩
      · -- every qualifying event is dominated by the result
        intro e' he' he'le
        rcases List.mem_cons.mp he' with rfl | hrest
        · rcases hstep with hs | ⟨a, ha, hs, hae⟩
          · obtain ⟨ev, hev, hevle⟩ := ih2 e' hs
            exact ⟨ev, hfold ▸ hev, hevle⟩
          · obtain ⟨ev, hev, hevle⟩ := ih2 a hs
            exact ⟨ev, hfold ▸ hev, le_trans hae hevle⟩
        · obtain ⟨ev, hev, hevle⟩ := ih3 e' hrest he'le
          exact ⟨ev, hfold ▸ hev, hevle⟩
    · -- the event does not qualify: the step is the identity
      have hs : activeStep targetDate acc e = acc := by
        simp [activeStep, hle]
      rw [hs] at ih1 ih2 ih3
      refine ⟨?_, ?_, ?_⟩
      · rcases ih1 with h | ⟨ev, hev, hmem, hevle⟩
        · exact Or.inl (by rw [hfold, hs, h])
        · exact Or.inr ⟨ev, by rw [hfold, hs]; exact hev, List.mem_cons_of_mem _ hmem, hevle⟩
      · intro a ha
        obtain ⟨ev, hev, hevle⟩ := ih2 a ha
        exact ⟨ev, by rw [hfold, hs]; exact hev, hevle⟩
      · intro e' he' he'le
        rcases List.mem_cons.mp he' with rfl | hrest
        · exact absurd he'le hle
        · obtain ⟨ev, hev, hevle⟩ := ih3 e' hrest he'le
          exact ⟨ev, by rw [hfold, hs]; exact hev, hevle⟩

/-- Soundness and maximality of `getActiveRebalanceForDate`: when some event
qualifies, the function returns a qualifying event whose date dominates
every qualifying event. -/
theorem getActiveRebalance_spec (pd : List RebalanceEvent) (targetDate : Nat)
    (h : ∃ e ∈ pd, e.date ≤ targetDate) :
    ∃ ev, getActiveRebalanceForDate pd targetDate = some ev ∧ ev ∈ pd ∧
      ev.date ≤ targetDate ∧
      ∀ e ∈ pd, e.date ≤ targetDate → e.date ≤ ev.date := by
  obtain ⟨e, he, hele⟩ := h
  obtain ⟨h1, _, h3⟩ := foldl_activeStep_spec targetDate pd none
  have hdef : getActiveRebalanceForDate pd targetDate =
      pd.foldl (activeStep targetDate) none := rfl
  obtain ⟨ev0, hev0, _⟩ := h3 e he hele
  rcases h1 with hnone | ⟨ev, hev, hmem, hevle⟩
  · rw [hnone] at hev0
    cases hev0
  · refine ⟨ev, hdef.trans hev, hmem, hevle, ?_⟩
    intro e' he' he'le
    obtain ⟨ev'', hev'', he''le⟩ := h3 e' he' he'le
    have heq : ev'' = ev := by
      rw [hev] at hev''
      injection hev'' with h
      exact h.symm
    exact heq ▸ he''le

/-- When no event qualifies, `getActiveRebalanceForDate` returns `none`. -/
theorem getActiveRebalance_none (pd : List RebalanceEvent) (targetDate : Nat)
    (h : ∀ e ∈ pd, targetDate < e.date) :
    getActiveRebalanceForDate pd targetDate = none := by
  obtain ⟨h1, _, _⟩ := foldl_activeStep_spec targetDate pd none
  rcases h1 with hnone | ⟨ev, _, hmem, hevle⟩
  · exact hnone
  · exact absurd hevle (not_le_of_lt (h ev hmem))

/-! ## Claim theorems -/

/-- Claim C7: for every ticker list, the capitalization-weight sub-routine
drops tickers whose lookup returns no value; when the valid set is empty or
the valid capitalizations sum to exactly zero it returns the empty mapping;
otherwise each valid ticker gets weight capitalization / total valid
capitalization, and the weights sum to 1 over the valid subset. -/
theorem c7_capitalization_weights_spec (cap : String → Option ℚ) (tickers : List String) :
    (∀ t, cap t = none →
      List.lookup t (calculateCapitalizationWeightsForTickers cap tickers) = none) ∧
    ((validCapitalizations cap tickers = [] ∨
        sumValues (validCapitalizations cap tickers) = 0) →
      calculateCapitalizationWeightsForTickers cap tickers = []) ∧
    (sumValues (validCapitalizations cap tickers) ≠ 0 →
      calculateCapitalizationWeightsForTickers cap tickers =
        (validCapitalizations cap tickers).map
          (fun p => (p.1, p.2 / sumValues (validCapitalizations cap tickers))) ∧
      sumValues (calculateCapitalizationWeightsForTickers cap tickers) = 1) := by
  refine ⟨?_, ?_, ?_⟩
  · intro t ht
    rcases capWeights_cases cap tickers with hc | ⟨hs, hc⟩
    · rw [hc]; rfl
    · rw [hc, lookup_map_snd (fun x => x / sumValues (validCapitalizations cap tickers))]
      rw [lookup_eq_none_of_forall (validCapitalizations cap tickers) t ?_]
      · rfl
      · rintro ⟨t', c'⟩ hp rfl
        have := ((mem_validCapitalizations_iff cap tickers t' c').mp hp).1
        rw [ht] at this
        cases this
  · intro h
    rw [calculateCapitalizationWeightsForTickers]
    split_ifs with h1 h2 h3
    · rfl
    · rfl
    · rfl
    · rcases h with h | h
      · exact absurd h h2
      · exact absurd h h3
  · intro hs
    have hvne : validCapitalizations cap tickers ≠ [] := by
      intro hv
      exact hs (by rw [hv]; rfl)
    have htne : tickers ≠ [] := by
      intro ht
      exact hvne (by rw [ht]; rfl)
    have heq : calculateCapitalizationWeightsForTickers cap tickers =
        (validCapitalizations cap tickers).map
          (fun p => (p.1, p.2 / sumValues (validCapitalizations cap tickers))) := by
      rw [calculateCapitalizationWeightsForTickers, if_neg htne, if_neg hvne, if_neg hs]
    refine ⟨heq, ?_⟩
    rw [heq, sumValues_map_div, div_self hs]

/-- Claim C7 witness: capitalizations A ↦ 300, B ↦ 700, C unknown, over
tickers [A, B, C]: C is dropped and the valid weights are A ↦ 0.3, B ↦ 0.7. -/
theorem c7_witness :
    List.lookup "C" (calculateCapitalizationWeightsForTickers
      (fun t => if t = "A" then some 300 else if t = "B" then some 700 else none)
      ["A", "B", "C"]) = none ∧
    calculateCapitalizationWeightsForTickers
      (fun t => if t = "A" then some 300 else if t = "B" then some 700 else none)
      ["A", "B", "C"] =
      (validCapitalizations
        (fun t => if t = "A" then some 300 else if t = "B" then some 700 else none)
        ["A", "B", "C"]).map
          (fun p => (p.1, p.2 / sumValues (validCapitalizations
            (fun t => if t = "A" then some 300 else if t = "B" then some 700 else none)
            ["A", "B", "C"]))) ∧
    sumValues (calculateCapitalizationWeightsForTickers
      (fun t => if t = "A" then some 300 else if t = "B" then some 700 else none)
      ["A", "B", "C"]) = 1 := by
  obtain ⟨h1, _, h3⟩ := c7_capitalization_weights_spec
    (fun t => if t = "A" then some 300 else if t = "B" then some 700 else none)
    ["A", "B", "C"]
  have hs : sumValues (validCapitalizations
      (fun t => if t = "A" then some 300 else if t = "B" then some 700 else none)
      ["A", "B", "C"]) ≠ 0 := by
    simp +decide [validCapitalizations, getMultipleTickersCapitalization,
      buildCapDict, sumValues]
    norm_num
  exact ⟨h1 "C" (by simp), (h3 hs).1, (h3 hs).2⟩

/-- Claim C3: whenever the mix operation returns a non-empty mapping from
non-negative fixed weights and a non-negative capitalization lookup, all
returned weights are non-negative and their sum is 1.0 within 1e-9
(exactly 1 in exact arithmetic). -/
theorem c3_mix_output_normalized (cap : String → Option ℚ) (tickers : List String)
    (predefinedWeights : List (String × ℚ))
    (hcap : ∀ t c, cap t = some c → 0 ≤ c)
    (hpred : ∀ p ∈ predefinedWeights, 0 ≤ p.2)
    (hne : calculateMixedWeights cap tickers predefinedWeights ≠ []) :
    (∀ p ∈ calculateMixedWeights cap tickers predefinedWeights, 0 ≤ p.2) ∧
    |sumValues (calculateMixedWeights cap tickers predefinedWeights) - 1| ≤
      1 / 1000000000 := by
  have main : (∀ p ∈ calculateMixedWeights cap tickers predefinedWeights, 0 ≤ p.2) ∧
      sumValues (calculateMixedWeights cap tickers predefinedWeights) = 1 := by
    rcases mixedWeights_result_cases cap tickers predefinedWeights with
      hc | hc | ⟨hcw, hrem, hc⟩
    · rw [hc] at hne ⊢
      exact ⟨normalizeWeights_nonneg _ hpred, sumValues_normalizeWeights _ hne⟩
    · rw [hc] at hne ⊢
      exact ⟨capWeights_nonneg cap tickers hcap, sumValues_capWeights cap tickers hne⟩
    · rw [hc] at hne ⊢
      have hmerged : ∀ p ∈ predefinedWeights ++
          (calculateCapitalizationWeightsForTickers cap
              (tickersWithoutWeights tickers predefinedWeights)).map
            (fun p => (p.1, p.2 * ((1 - sumValues predefinedWeights) /
              sumValues (calculateCapitalizationWeightsForTickers cap
                (tickersWithoutWeights tickers predefinedWeights))))), 0 ≤ p.2 := by
        intro p hp
        rcases List.mem_append.mp hp with hp | hp
        · exact hpred p hp
        · rcases List.mem_map.mp hp with ⟨q, hq, rfl⟩
          have hq2 : 0 ≤ q.2 := capWeights_nonneg cap _ hcap q hq
          have hrem' : 0 ≤ 1 - sumValues predefinedWeights := le_of_lt (not_le.mp hrem)
          have hcsum : 0 ≤ sumValues (calculateCapitalizationWeightsForTickers cap
              (tickersWithoutWeights tickers predefinedWeights)) :=
            sumValues_nonneg _ (capWeights_nonneg cap _ hcap)
          exact mul_nonneg hq2 (div_nonneg hrem' hcsum)
      exact ⟨normalizeWeights_nonneg _ hmerged, sumValues_normalizeWeights _ hne⟩
  refine ⟨main.1, ?_⟩
  rw [main.2]
  norm_num

/-- Claim C3 witness: tickers [A, B], fixed A ↦ 0.6, capitalization
B ↦ 500 (and A ↦ 1000, unused): the output is non-empty, non-negative, and
sums to 1 within 1e-9. -/
theorem c3_witness :
    (∀ p ∈ calculateMixedWeights
        (fun t => if t = "A" then some 1000 else if t = "B" then some 500 else none)
        ["A", "B"] [("A", 6/10)], 0 ≤ p.2) ∧
    |sumValues (calculateMixedWeights
        (fun t => if t = "A" then some 1000 else if t = "B" then some 500 else none)
        ["A", "B"] [("A", 6/10)]) - 1| ≤ 1 / 1000000000 := by
  refine c3_mix_output_normalized _ _ _ ?_ ?_ ?_
  · intro t c h
    split_ifs at h with h1 h2
    · injection h with h
      rw [← h]
      norm_num
    · injection h with h
      rw [← h]
      norm_num
  · rintro p hp
    rcases List.mem_cons.mp hp with rfl | hp
    · norm_num
    · cases hp
  · have : calculateMixedWeights
        (fun t => if t = "A" then some 1000 else if t = "B" then some 500 else none)
        ["A", "B"] [("A", 6/10)] = [("A", 6/10), ("B", 4/10)] := by
      simp +decide [calculateMixedWeights, tickersWithoutWeights, keys, normalizeWeights,
        sumValues, validCapitalizations, getMultipleTickersCapitalization, buildCapDict,
        calculateCapitalizationWeightsForTickers]
      norm_num
    rw [this]
    simp

/-- Claim C8: when the fixed weights cover every input ticker, the mix
operation is invariant to the capitalization lookup, and (for a nonzero
fixed sum) returns each fixed weight divided by the fixed sum. -/
theorem c8_all_fixed_regime (cap₁ cap₂ : String → Option ℚ) (tickers : List String)
    (predefinedWeights : List (String × ℚ))
    (h : ∀ t ∈ tickers, t ∈ keys predefinedWeights) :
    calculateMixedWeights cap₁ tickers predefinedWeights =
      calculateMixedWeights cap₂ tickers predefinedWeights ∧
    (sumValues predefinedWeights ≠ 0 →
      calculateMixedWeights cap₁ tickers predefinedWeights =
        predefinedWeights.map
          (fun p => (p.1, p.2 / sumValues predefinedWeights))) := by
  have hw : tickersWithoutWeights tickers predefinedWeights = [] := by
    rw [tickersWithoutWeights, List.filter_eq_nil_iff]
    intro t ht
    simp [h t ht]
  rw [calculateMixedWeights, if_pos hw, calculateMixedWeights, if_pos hw]
  refine ⟨rfl, ?_⟩
  intro hs
  exact normalizeWeights_eq predefinedWeights (ne_nil_of_sumValues_ne_zero _ hs) hs

/-- Claim C8 witness: fixed weights A ↦ 3, B ↦ 1 cover tickers [A, B]; the
mix result is the same under two different lookups and equals the fixed
weights divided by their sum 4. -/
theorem c8_witness :
    calculateMixedWeights (fun _ => some 1000) ["A", "B"] [("A", 3), ("B", 1)] =
      calculateMixedWeights (fun _ => none) ["A", "B"] [("A", 3), ("B", 1)] ∧
    calculateMixedWeights (fun _ => some 1000) ["A", "B"] [("A", 3), ("B", 1)] =
      [("A", 3), ("B", 1)].map
        (fun p => (p.1, p.2 / sumValues [("A", 3), ("B", 1)])) := by
  obtain ⟨h1, h2⟩ := c8_all_fixed_regime (fun _ => some 1000) (fun _ => none)
    ["A", "B"] [("A", 3), ("B", 1)] (by decide)
  refine ⟨h1, h2 ?_⟩
  simp [sumValues]
  norm_num

/-- Claim C9: in the mixed regime, when the fixed weights sum to at least 1
or the remainder capitalization weights are empty, the result is the
normalized fixed weights alone and the unweighted tickers get nothing. -/
theorem c9_mixed_fallbacks (cap : String → Option ℚ) (tickers : List String)
    (predefinedWeights : List (String × ℚ))
    (h1 : tickersWithoutWeights tickers predefinedWeights ≠ [])
    (h2 : keys predefinedWeights ≠ [])
    (h : 1 ≤ sumValues predefinedWeights ∨
      calculateCapitalizationWeightsForTickers cap
        (tickersWithoutWeights tickers predefinedWeights) = []) :
    calculateMixedWeights cap tickers predefinedWeights =
      normalizeWeights predefinedWeights ∧
    ∀ t, t ∉ keys predefinedWeights →
      List.lookup t (calculateMixedWeights cap tickers predefinedWeights) = none := by
  have heq : calculateMixedWeights cap tickers predefinedWeights =
      normalizeWeights predefinedWeights := by
    refine mixedWeights_fallback cap tickers predefinedWeights h1 h2 ?_
    rcases h with h | h
    · exact Or.inr (by linarith)
    · exact Or.inl h
  refine ⟨heq, ?_⟩
  intro t ht
  rw [heq]
  refine lookup_eq_none_of_forall _ t ?_
  rintro p hp rfl
  exact ht (keys_normalizeWeights_sub predefinedWeights p.1
    (List.mem_map.mpr ⟨p, hp, rfl⟩))

/-- Claim C9 witness: tickers [A, B], fixed A ↦ 2, no capitalization data:
the result is the normalized fixed weights and B receives no allocation. -/
theorem c9_witness :
    calculateMixedWeights (fun _ => none) ["A", "B"] [("A", 2)] =
      normalizeWeights [("A", 2)] ∧
    List.lookup "B" (calculateMixedWeights (fun _ => none) ["A", "B"] [("A", 2)]) =
      none := by
  obtain ⟨h1, h2⟩ := c9_mixed_fallbacks (fun _ => none) ["A", "B"] [("A", 2)]
    (by decide) (by decide) (Or.inr rfl)
  exact ⟨h1, h2 "B" (by decide)⟩

/-- Claim C10: a portfolio name absent from the loaded portfolio set yields
the empty mapping for every target date.  The embedding is a pure function
of the read-only calculator state, so no exception is raised and the state
is unchanged by construction (the source method only reads
`self.portfolios` before returning `{}`). -/
theorem c10_unknown_portfolio (st : CalculatorState) (portfolioName : String)
    (targetDate : Nat) (h : portfolioName ∉ keys st.portfolios) :
    calculatePortfolioWeightsForDate st portfolioName targetDate = [] := by
  rw [calculatePortfolioWeightsForDate, if_neg h]

/-- Claim C10 witness: asking for `portfolio_2` when only `portfolio_1`
is loaded yields the empty mapping. -/
theorem c10_witness :
    calculatePortfolioWeightsForDate
      ⟨[("portfolio_1", [⟨100, [("A", none)]⟩])], fun _ => none⟩
      "portfolio_2" 200 = [] :=
  c10_unknown_portfolio _ _ _ (by decide)

/-- Claim C1: for a portfolio whose event dates are unique (the data-model
invariant) and a target date at or after some event, resolution returns the
event with the maximum date at or before the target — strictly later than
every other qualifying event — and the resolved tickers are all keys of its
allocations while the fixed weights are exactly its non-null entries. -/
theorem c1_resolver_selects_latest (portfolios : List (String × List RebalanceEvent))
    (portfolioName : String) (pd : List RebalanceEvent) (targetDate : Nat)
    (hpd : List.lookup portfolioName portfolios = some pd)
    (hnd : (pd.map RebalanceEvent.date).Nodup)
    (h : ∃ e ∈ pd, e.date ≤ targetDate) :
    ∃ ev, getActiveRebalanceForDate pd targetDate = some ev ∧ ev ∈ pd ∧
      ev.date ≤ targetDate ∧
      (∀ e ∈ pd, e.date ≤ targetDate → e ≠ ev → e.date < ev.date) ∧
      getPortfolioTickersForDate portfolios portfolioName targetDate =
        keys ev.tickers ∧
      getPortfolioWeightsForDate portfolios portfolioName targetDate =
        ev.tickers.filterMap (fun p => p.2.map (fun w => (p.1, w))) := by
  obtain ⟨ev, hev, hmem, hle, hmax⟩ := getActiveRebalance_spec pd targetDate h
  refine ⟨ev, hev, hmem, hle, ?_, ?_, ?_⟩
  · intro e he hele hne
    refine lt_of_le_of_ne (hmax e he hele) ?_
    intro hdate
    exact hne (List.inj_on_of_nodup_map hnd he hmem hdate)
  · simp [getPortfolioTickersForDate, hpd, hev]
  · simp [getPortfolioWeightsForDate, hpd, hev]

/-- Claim C1 witness: two events dated 10 and 20, queried at 15: the event
dated 10 is selected, its keys are the tickers and its non-null entry is
the only fixed weight. -/
theorem c1_witness :
    ∃ ev, getActiveRebalanceForDate
        [⟨10, [("A", some (1/2)), ("B", none)]⟩, ⟨20, [("C", none)]⟩] 15 =
        some ev ∧
      ev ∈ [⟨10, [("A", some (1/2)), ("B", none)]⟩, ⟨20, [("C", none)]⟩] ∧
      ev.date ≤ 15 ∧
      (∀ e ∈ [⟨10, [("A", some (1/2)), ("B", none)]⟩, ⟨20, [("C", none)]⟩],
        e.date ≤ 15 → e ≠ ev → e.date < ev.date) ∧
      getPortfolioTickersForDate
        [("portfolio_1", [⟨10, [("A", some (1/2)), ("B", none)]⟩, ⟨20, [("C", none)]⟩])]
        "portfolio_1" 15 = keys ev.tickers ∧
      getPortfolioWeightsForDate
        [("portfolio_1", [⟨10, [("A", some (1/2)), ("B", none)]⟩, ⟨20, [("C", none)]⟩])]
        "portfolio_1" 15 =
        ev.tickers.filterMap (fun p => p.2.map (fun w => (p.1, w))) :=
  c1_resolver_selects_latest _ "portfolio_1" _ 15 rfl (by decide)
    ⟨⟨10, [("A", some (1/2)), ("B", none)]⟩, by simp, by norm_num⟩

/-- Claim C4: when every event of a known portfolio is dated strictly after
the target date (in particular when the portfolio has no events),
resolution fails (`none`, the spec's `NoActiveRebalance`), the per-portfolio
calculation returns the empty mapping, and the all-portfolio aggregation
omits the portfolio. -/
theorem c4_no_active_rebalance (st : CalculatorState) (portfolioName : String)
    (pd : List RebalanceEvent) (targetDate : Nat)
    (hpd : List.lookup portfolioName st.portfolios = some pd)
    (h : ∀ e ∈ pd, targetDate < e.date) :
    getActiveRebalanceForDate pd targetDate = none ∧
    calculatePortfolioWeightsForDate st portfolioName targetDate = [] ∧
    List.lookup portfolioName (calculateAllPortfoliosWeightsForDate st targetDate) =
      none := by
  have hactive : getActiveRebalanceForDate pd targetDate = none :=
    getActiveRebalance_none pd targetDate h
  have hmem : portfolioName ∈ keys st.portfolios :=
    mem_keys_of_lookup_eq_some st.portfolios portfolioName pd hpd
  have htickers : getPortfolioTickersForDate st.portfolios portfolioName targetDate
      = [] := by
    simp [getPortfolioTickersForDate, hpd, hactive]
  have hcalc : calculatePortfolioWeightsForDate st portfolioName targetDate = [] := by
    rw [calculatePortfolioWeightsForDate, if_pos hmem, if_pos htickers]
  refine ⟨hactive, hcalc, ?_⟩
  refine lookup_eq_none_of_forall _ portfolioName ?_
  rintro q hq rfl
  rcases List.mem_filterMap.mp hq with ⟨p, hp, hcond⟩
  by_cases hzero : calculatePortfolioWeightsForDate st p.1 targetDate = []
  · rw [if_pos hzero] at hcond
    cases hcond
  · rw [if_neg hzero] at hcond
    injection hcond with hcond
    rw [congrArg Prod.fst hcond] at hzero
    exact hzero hcalc

/-- Claim C4 witness: a single portfolio whose only event is dated 100,
queried at 50: resolution is `none`, the portfolio's weights are empty and
it is absent from the aggregate. -/
theorem c4_witness :
    getActiveRebalanceForDate [⟨100, [("A", some 1)]⟩] 50 = none ∧
    calculatePortfolioWeightsForDate
      ⟨[("portfolio_1", [⟨100, [("A", some 1)]⟩])], fun _ => none⟩
      "portfolio_1" 50 = [] ∧
    List.lookup "portfolio_1" (calculateAllPortfoliosWeightsForDate
      ⟨[("portfolio_1", [⟨100, [("A", some 1)]⟩])], fun _ => none⟩ 50) = none :=
  c4_no_active_rebalance
    ⟨[("portfolio_1", [⟨100, [("A", some 1)]⟩])], fun _ => none⟩
    "portfolio_1" [⟨100, [("A", some 1)]⟩] 50 rfl (by decide)

/-- Claim C5 counterexample: two distinct events share the date 100, both at
or before the target 200, yet resolution does not fail: it silently returns
the first event's data (the strict `>` comparison in
`_get_active_rebalance_for_date` never replaces an equal date). -/
theorem c5_counterexample :
    getActiveRebalanceForDate
        [⟨100, [("A", some 1)]⟩, ⟨100, [("B", none)]⟩] 200 =
      some ⟨100, [("A", some 1)]⟩ ∧
    (⟨100, [("A", some 1)]⟩ : RebalanceEvent) ≠ ⟨100, [("B", none)]⟩ ∧
    getActiveRebalanceForDate
        [⟨100, [("A", some 1)]⟩, ⟨100, [("B", none)]⟩] 200 ≠ none := by
  refine ⟨?_, ?_, ?_⟩
  · simp [getActiveRebalanceForDate, activeStep]
  · simp [RebalanceEvent.mk.injEq]
  · simp [getActiveRebalanceForDate, activeStep]

/-- Claim C5 amended: with two events of equal date at or before the target,
resolution silently returns the first event in iteration order (no
`DuplicateRebalanceDate` failure exists in the code). -/
theorem c5_duplicate_date_first_wins (e₁ e₂ : RebalanceEvent) (targetDate : Nat)
    (hdup : e₁.date = e₂.date) (hle : e₁.date ≤ targetDate) :
    getActiveRebalanceForDate [e₁, e₂] targetDate = some e₁ := by
  have h2 : e₂.date ≤ targetDate := hdup ▸ hle
  have hlt : ¬ e₁.date < e₂.date := by omega
  simp [getActiveRebalanceForDate, activeStep, hle, h2, hlt]

/-- Claim C5 amended witness: the duplicate-date portfolio of the
counterexample indeed yields the first event. -/
theorem c5_witness :
    getActiveRebalanceForDate
        [⟨100, [("A", some 1)]⟩, ⟨100, [("B", none)]⟩] 200 =
      some ⟨100, [("A", some 1)]⟩ :=
  c5_duplicate_date_first_wins ⟨100, [("A", some 1)]⟩ ⟨100, [("B", none)]⟩ 200
    rfl (by decide)

/-- Evaluation of the merged mixed path: when the fixed keys are non-empty,
the remainder has valid capitalizations with nonzero total, and the fixed
sum is below 1, the result is the merge of the fixed weights with the
capitalization weights scaled by `1 - fixed sum`, finally divided by the
merged sum, which is exactly 1. -/
theorem merge_path_spec (cap : String → Option ℚ) (tickers : List String)
    (predefinedWeights : List (String × ℚ))
    (h2 : keys predefinedWeights ≠ [])
    (hvne : validCapitalizations cap
      (tickersWithoutWeights tickers predefinedWeights) ≠ [])
    (htot : sumValues (validCapitalizations cap
      (tickersWithoutWeights tickers predefinedWeights)) ≠ 0)
    (hS1 : sumValues predefinedWeights < 1) :
    calculateMixedWeights cap tickers predefinedWeights =
      (predefinedWeights ++
        ((validCapitalizations cap (tickersWithoutWeights tickers predefinedWeights)).map
            (fun p => (p.1, p.2 / sumValues (validCapitalizations cap
              (tickersWithoutWeights tickers predefinedWeights))))).map
          (fun p => (p.1, p.2 * (1 - sumValues predefinedWeights)))).map
        (fun p => (p.1, p.2 / 1)) := by
  obtain ⟨q, hq⟩ := List.exists_mem_of_ne_nil _ hvne
  have hW : tickersWithoutWeights tickers predefinedWeights ≠ [] :=
    List.ne_nil_of_mem
      ((mem_validCapitalizations_iff cap _ q.1 q.2).mp (by exact hq)).2
  have hpre : predefinedWeights ≠ [] := by
    intro hp
    exact h2 (by rw [hp]; rfl)
  have hcapW_eq : calculateCapitalizationWeightsForTickers cap
      (tickersWithoutWeights tickers predefinedWeights) =
      (validCapitalizations cap (tickersWithoutWeights tickers predefinedWeights)).map
        (fun p => (p.1, p.2 / sumValues (validCapitalizations cap
          (tickersWithoutWeights tickers predefinedWeights)))) := by
    rw [calculateCapitalizationWeightsForTickers, if_neg hW, if_neg hvne, if_neg htot]
  have hcapW_ne : calculateCapitalizationWeightsForTickers cap
      (tickersWithoutWeights tickers predefinedWeights) ≠ [] := by
    rw [hcapW_eq]
    simpa using hvne
  have hsum : sumValues (calculateCapitalizationWeightsForTickers cap
      (tickersWithoutWeights tickers predefinedWeights)) = 1 :=
    sumValues_capWeights cap _ hcapW_ne
  have h4 : ¬ 1 - sumValues predefinedWeights ≤ 0 :=
    not_le.mpr (sub_pos.mpr hS1)
  rw [mixedWeights_merge cap tickers predefinedWeights hW h2 hcapW_ne h4, hsum,
    div_one, hcapW_eq]
  have hmerged_sum : sumValues (predefinedWeights ++
      ((validCapitalizations cap (tickersWithoutWeights tickers predefinedWeights)).map
          (fun p => (p.1, p.2 / sumValues (validCapitalizations cap
            (tickersWithoutWeights tickers predefinedWeights))))).map
        (fun p => (p.1, p.2 * (1 - sumValues predefinedWeights)))) = 1 := by
    rw [sumValues_append, sumValues_map_mul, sumValues_map_div, div_self htot, one_mul]
    ring
  have hmerged_ne : predefinedWeights ++
      ((validCapitalizations cap (tickersWithoutWeights tickers predefinedWeights)).map
          (fun p => (p.1, p.2 / sumValues (validCapitalizations cap
            (tickersWithoutWeights tickers predefinedWeights))))).map
        (fun p => (p.1, p.2 * (1 - sumValues predefinedWeights))) ≠ [] := by
    simp [hpre]
  rw [normalizeWeights_eq _ hmerged_ne (by rw [hmerged_sum]; exact one_ne_zero),
    hmerged_sum]

/-- Claim C2: in the mixed regime with fixed sum `p`, `0 < p < 1`, and valid
remainder capitalizations with nonzero total, a remainder ticker with
capitalization `c` receives final weight `(c / total) * (1 - p)` — exactly,
since the final normalization divides by a merged sum that is exactly 1. -/
theorem c2_mixed_regime_scaling (cap : String → Option ℚ) (tickers : List String)
    (predefinedWeights : List (String × ℚ)) (t : String) (c : ℚ)
    (hS0 : 0 < sumValues predefinedWeights)
    (hS1 : sumValues predefinedWeights < 1)
    (ht : t ∈ tickersWithoutWeights tickers predefinedWeights)
    (hc : cap t = some c)
    (htot : sumValues (validCapitalizations cap
      (tickersWithoutWeights tickers predefinedWeights)) ≠ 0) :
    List.lookup t (calculateMixedWeights cap tickers predefinedWeights) =
      some (c / sumValues (validCapitalizations cap
          (tickersWithoutWeights tickers predefinedWeights)) *
        (1 - sumValues predefinedWeights)) := by
  have hvalid : (t, c) ∈ validCapitalizations cap
      (tickersWithoutWeights tickers predefinedWeights) :=
    (mem_validCapitalizations_iff cap _ t c).mpr ⟨hc, ht⟩
  have hkeys : keys predefinedWeights ≠ [] := by
    intro hk
    have hpre : predefinedWeights = [] := by
      cases predefinedWeights with
      | nil => rfl
      | cons p rest => cases hk
    rw [hpre] at hS0
    exact lt_irrefl 0 hS0
  rw [merge_path_spec cap tickers predefinedWeights hkeys
    (List.ne_nil_of_mem hvalid) htot hS1]
  rw [lookup_map_snd (fun x => x / 1)]
  rw [lookup_append_of_not_mem_keys _ _ t
    ((mem_tickersWithoutWeights tickers predefinedWeights t).mp ht).2]
  rw [lookup_map_snd (fun x => x * (1 - sumValues predefinedWeights))]
  rw [lookup_map_snd (fun x => x / sumValues (validCapitalizations cap
    (tickersWithoutWeights tickers predefinedWeights)))]
  rw [lookup_eq_some_of_mem_nodup _ t c hvalid (keys_validCapitalizations_nodup cap _)]
  simp

/-- Claim C2 witness: tickers [A, B, C], fixed A ↦ 0.6, capitalizations
B ↦ 100, C ↦ 300: B's final weight is (100/400)·(1−0.6). -/
theorem c2_witness :
    List.lookup "B" (calculateMixedWeights
        (fun t => if t = "B" then some 100 else if t = "C" then some 300 else none)
        ["A", "B", "C"] [("A", 6/10)]) =
      some (100 / sumValues (validCapitalizations
          (fun t => if t = "B" then some 100 else if t = "C" then some 300 else none)
          (tickersWithoutWeights ["A", "B", "C"] [("A", 6/10)])) *
        (1 - sumValues [("A", 6/10)])) := by
  refine c2_mixed_regime_scaling _ _ _ "B" 100 ?_ ?_ ?_ ?_ ?_
  · simp [sumValues]
  · simp [sumValues]
    norm_num
  · simp +decide [tickersWithoutWeights, keys]
  · simp
  · simp +decide [validCapitalizations, getMultipleTickersCapitalization,
      buildCapDict, tickersWithoutWeights, keys, sumValues]
    norm_num

/-- Claim C6 counterexample: tickers [A, B] with fixed A ↦ 0.5 and no
capitalization data for B: the result is non-empty but B — a member of the
input ticker set — is absent from it, so the key set is not the input set. -/
theorem c6_counterexample :
    ("B" : String) ∈ ["A", "B"] ∧
    calculateMixedWeights (fun _ => none) ["A", "B"] [("A", 1/2)] ≠ [] ∧
    List.lookup "B"
      (calculateMixedWeights (fun _ => none) ["A", "B"] [("A", 1/2)]) = none := by
  have heq : calculateMixedWeights (fun _ => none) ["A", "B"] [("A", 1/2)] =
      [("A", 1)] := by
    simp +decide [calculateMixedWeights, tickersWithoutWeights, keys, normalizeWeights,
      sumValues, validCapitalizations, getMultipleTickersCapitalization, buildCapDict,
      calculateCapitalizationWeightsForTickers]
  refine ⟨by decide, ?_, ?_⟩
  · rw [heq]
    simp
  · rw [heq]
    rfl

/-- Claim C6 amended: when the mixed merge actually runs — fixed keys
non-empty and inside the ticker set, some remainder exists, every remainder
ticker has a valid capitalization with nonzero total, and the fixed sum is
below 1 — the result's key set is exactly the input ticker set; in the
fallback regimes tickers may be silently dropped (see the counterexample). -/
theorem c6_keys_on_merge_path (cap : String → Option ℚ) (tickers : List String)
    (predefinedWeights : List (String × ℚ))
    (hsub : ∀ t ∈ keys predefinedWeights, t ∈ tickers)
    (h2 : keys predefinedWeights ≠ [])
    (h1 : tickersWithoutWeights tickers predefinedWeights ≠ [])
    (hvalid : ∀ t ∈ tickersWithoutWeights tickers predefinedWeights, ∃ c, cap t = some c)
    (htot : sumValues (validCapitalizations cap
      (tickersWithoutWeights tickers predefinedWeights)) ≠ 0)
    (hS1 : sumValues predefinedWeights < 1) :
    ∀ t, t ∈ keys (calculateMixedWeights cap tickers predefinedWeights) ↔
      t ∈ tickers := by
  have hvne : validCapitalizations cap
      (tickersWithoutWeights tickers predefinedWeights) ≠ [] := by
    obtain ⟨t₀, ht₀⟩ := List.exists_mem_of_ne_nil _ h1
    obtain ⟨c₀, hc₀⟩ := hvalid t₀ ht₀
    exact List.ne_nil_of_mem
      ((mem_validCapitalizations_iff cap _ t₀ c₀).mpr ⟨hc₀, ht₀⟩)
  intro t
  rw [merge_path_spec cap tickers predefinedWeights h2 hvne htot hS1]
  rw [keys_map_snd (fun x => x / 1), keys_append,
    keys_map_snd (fun x => x * (1 - sumValues predefinedWeights)),
    keys_map_snd (fun x => x / sumValues (validCapitalizations cap
      (tickersWithoutWeights tickers predefinedWeights)))]
  rw [List.mem_append, mem_keys_validCapitalizations]
  constructor
  · rintro (h | ⟨_, hW⟩)
    · exact hsub t h
    · exact ((mem_tickersWithoutWeights tickers predefinedWeights t).mp hW).1
  · intro htk
    by_cases hkp : t ∈ keys predefinedWeights
    · exact Or.inl hkp
    · have hW : t ∈ tickersWithoutWeights tickers predefinedWeights :=
        (mem_tickersWithoutWeights tickers predefinedWeights t).mpr ⟨htk, hkp⟩
      exact Or.inr ⟨hvalid t hW, hW⟩

/-- Claim C6 amended witness: tickers [A, B], fixed A ↦ 0.5, capitalization
B ↦ 100: the result's keys are exactly {A, B}. -/
theorem c6_witness :
    (("A" : String) ∈ keys (calculateMixedWeights
        (fun t => if t = "B" then some 100 else none)
        ["A", "B"] [("A", 1/2)]) ↔ ("A" : String) ∈ ["A", "B"]) ∧
    (("B" : String) ∈ keys (calculateMixedWeights
        (fun t => if t = "B" then some 100 else none)
        ["A", "B"] [("A", 1/2)]) ↔ ("B" : String) ∈ ["A", "B"]) ∧
    (("C" : String) ∈ keys (calculateMixedWeights
        (fun t => if t = "B" then some 100 else none)
        ["A", "B"] [("A", 1/2)]) ↔ ("C" : String) ∈ ["A", "B"]) := by
  have h := c6_keys_on_merge_path (fun t => if t = "B" then some 100 else none)
    ["A", "B"] [("A", 1/2)]
    (by decide) (by decide) (by decide)
    (by
      intro t ht
      have ht' : t = "B" := by
        simpa +decide [tickersWithoutWeights, keys] using ht
      exact ⟨100, by simp [ht']⟩)
    (by
      simp +decide [validCapitalizations, getMultipleTickersCapitalization,
        buildCapDict, tickersWithoutWeights, keys, sumValues])
    (by
      simp [sumValues]
      norm_num)
  exact ⟨h "A", h "B", h "C"⟩

end PortfolioTesting

